import Mathlib

/-!
Verification of the record-linkage / event-unification engine of the
Pinatubo 1991 seismic-data pipeline.

The Lean definitions below are shallow embeddings of the Python pipeline
scripts:

* `dedupe_within_group`       — `pipeline/22_merge_picks.py`
* `merge_pick_tables` (cross-source suppression predicate)
                              — `pipeline/22_merge_picks.py`
* `dedupe_picks_within_event`, `validate_step30_map`, `build_event_catalog`
                              — `pipeline/32_build_waveform_pick_events.py`
* hypocenter clustering and preferred-origin selection
                              — `pipeline/43_associate_hypocenters.py` (`main`)
* the waveform-event/hypocenter outer join
                              — `pipeline/50_build_obspy_catalog.py` (`main`)
* the per-group association state machine
                              — `pipeline/05b_build_waveform_pick_events.py` (`main`)

Timestamps are modelled as integers (e.g. milliseconds since an epoch);
all time comparisons in the sources are order/absolute-difference
comparisons, which transfer verbatim.  Pandas `sort_values` is modelled by
a deterministic (stable) insertion sort on the same lexicographic key;
the sources do not depend on the order of rows whose full sort key ties.
String-valued identifiers (seed ids, phases, group ids) are modelled as
natural numbers: the sources only compare them for equality/order.
-/

/-- A six-component lexicographic sort measure: five `Nat` components
followed by an `Int` time.  This encodes every `sort_values` key used by
the dedup routines: `(rank, key-missing-tag, key, time)`. -/
structure RowMeas where
  r1 : Nat
  r2 : Nat
  r3 : Nat
  r4 : Nat
  r5 : Nat
  t : Int
deriving DecidableEq

/-- Lexicographic order on `RowMeas` (NaN-style missing keys are encoded
by the caller as a larger `r2`, matching pandas `na_position` last). -/
def rowLe (x y : RowMeas) : Prop :=
  x.r1 < y.r1 ∨ (x.r1 = y.r1 ∧ (x.r2 < y.r2 ∨ (x.r2 = y.r2 ∧
    (x.r3 < y.r3 ∨ (x.r3 = y.r3 ∧ (x.r4 < y.r4 ∨ (x.r4 = y.r4 ∧
      (x.r5 < y.r5 ∨ (x.r5 = y.r5 ∧ x.t ≤ y.t)))))))))

instance rowLe.decidable : ∀ x y : RowMeas, Decidable (rowLe x y) := by
  intro x y
  unfold rowLe
  exact inferInstance

theorem rowLe_refl (x : RowMeas) : rowLe x x := by
  unfold rowLe; omega

theorem rowLe_trans {x y z : RowMeas} (h₁ : rowLe x y) (h₂ : rowLe y z) :
    rowLe x z := by
  unfold rowLe at *; omega

theorem rowLe_total (x y : RowMeas) : rowLe x y ∨ rowLe y x := by
  unfold rowLe; omega

/-- The dedup key `(seed_norm, phase)` or `(group, seed_norm, phase)`,
uniformly three components. -/
abbrev DKey := Nat × Nat × Nat

/-- A dedup profile: how a row type exposes the sort rank
(`pick_priority` rank in step 32, constant in step 22), the pandas
`groupby` key (`none` models a NaN key, which pandas `groupby` drops),
and the pick time used for successive differences. -/
structure DProf (α : Type) where
  rank : α → Nat
  key : α → Option DKey
  time : α → Int

/-- The `sort_values` measure of a row: rank first (step 32 sorts
`_pri_rank` first), then the key (missing keys last), then time. -/
def DProf.meas (d : DProf α) (a : α) : RowMeas :=
  match d.key a with
  | some (k1, k2, k3) => ⟨d.rank a, 0, k1, k2, k3, d.time a⟩
  | none => ⟨d.rank a, 1, 0, 0, 0, d.time a⟩

/-- Row order used by the dedup routines' `sort_values`. -/
def DProf.le (d : DProf α) (a b : α) : Prop := rowLe (d.meas a) (d.meas b)

instance DProf.le.decidable (d : DProf α) : DecidableRel d.le := by
  intro a b
  unfold DProf.le
  exact inferInstance

/-- The updated `last` state after sweeping past row `a` of key `k`. -/
def updLast (d : DProf α) (a : α) (k : DKey) (last : DKey → Option Int) :
    DKey → Option Int :=
  fun k' => if k' = k then some (d.time a) else last k'

/-- The duplicate flag of a row of key `k`: the previous same-key time is
within `tol` (`_dt.notna() & (_dt.abs() <= tol)`). -/
def dupFlag (d : DProf α) (tol : Int) (a : α) (k : DKey)
    (last : DKey → Option Int) : Bool :=
  match last k with
  | none => false
  | some t => decide (|d.time a - t| ≤ tol)

/-- One left-to-right sweep computing pandas
`groupby(key)[time].diff()` duplicate flags: a row is a duplicate when
the most recent row of the same key (`last`) is within `tol` of it.
Rows with a missing key are never duplicates (pandas `groupby` drops NaN
keys, giving them a NaN diff).  Returns `(kept, suppressed)`, both in
sweep order, mirroring the `dup_mask` partition of the source. -/
def markDupsGo (d : DProf α) (tol : Int) :
    List α → (DKey → Option Int) → List α × List α
  | [], _ => ([], [])
  | a :: l, last =>
    match d.key a with
    | none =>
      let r := markDupsGo d tol l last
      (a :: r.1, r.2)
    | some k =>
      let r := markDupsGo d tol l (updLast d a k last)
      if dupFlag d tol a k last then (r.1, a :: r.2) else (a :: r.1, r.2)

/-- Duplicate-marking sweep with the running state first (wrapper). -/
def markDups (d : DProf α) (tol : Int) (last : DKey → Option Int)
    (l : List α) : List α × List α :=
  markDupsGo d tol l last

/-- `dedupe` sorts by `(rank, key, time)` and drops every row within
`tol` of the previous same-key row, keeping the first occurrence — the
common core of `dedupe_within_group` (step 22) and
`dedupe_picks_within_event` (step 32). -/
def dedupe (d : DProf α) (tol : Int) (l : List α) : List α × List α :=
  markDups d tol (fun _ => none) (List.insertionSort d.le l)

theorem markDups_nil (d : DProf α) (tol : Int) (last : DKey → Option Int) :
    markDups d tol last [] = ([], []) := rfl

theorem markDups_cons_none {a : α} (d : DProf α) (tol : Int)
    (last : DKey → Option Int) (l : List α) (h : d.key a = none) :
    markDups d tol last (a :: l) =
      (a :: (markDups d tol last l).1, (markDups d tol last l).2) := by
  unfold markDups
  simp only [markDupsGo, h]

theorem markDups_cons_some {a : α} {k : DKey} (d : DProf α) (tol : Int)
    (last : DKey → Option Int) (l : List α) (h : d.key a = some k) :
    markDups d tol last (a :: l) =
      (if dupFlag d tol a k last
        then ((markDups d tol (updLast d a k last) l).1,
              a :: (markDups d tol (updLast d a k last) l).2)
        else (a :: (markDups d tol (updLast d a k last) l).1,
              (markDups d tol (updLast d a k last) l).2)) := by
  unfold markDups
  simp only [markDupsGo, h]

theorem markDups_fst_sublist (d : DProf α) (tol : Int)
    (last : DKey → Option Int) (l : List α) :
    (markDups d tol last l).1.Sublist l := by
  induction l generalizing last with
  | nil => simp [markDups_nil]
  | cons a l ih =>
    cases hk : d.key a with
    | none =>
      rw [markDups_cons_none d tol last l hk]
      exact (ih last).cons₂ a
    | some k =>
      rw [markDups_cons_some d tol last l hk]
      cases hdup : dupFlag d tol a k last with
      | true =>
        rw [if_pos rfl]
        exact (ih _).cons a
      | false =>
        rw [if_neg (by simp)]
        exact (ih _).cons₂ a

theorem markDups_snd_sublist (d : DProf α) (tol : Int)
    (last : DKey → Option Int) (l : List α) :
    (markDups d tol last l).2.Sublist l := by
  induction l generalizing last with
  | nil => simp [markDups_nil]
  | cons a l ih =>
    cases hk : d.key a with
    | none =>
      rw [markDups_cons_none d tol last l hk]
      exact (ih last).cons a
    | some k =>
      rw [markDups_cons_some d tol last l hk]
      cases hdup : dupFlag d tol a k last with
      | true =>
        rw [if_pos rfl]
        exact (ih _).cons₂ a
      | false =>
        rw [if_neg (by simp)]
        exact (ih _).cons a

theorem dedupe_fst_subset (d : DProf α) (tol : Int) (l : List α) :
    ∀ a ∈ (dedupe d tol l).1, a ∈ l := by
  intro a ha
  have h₁ := (markDups_fst_sublist d tol (fun _ => none)
    (List.insertionSort d.le l)).mem ha
  exact (List.mem_insertionSort d.le).1 h₁

theorem dedupe_snd_subset (d : DProf α) (tol : Int) (l : List α) :
    ∀ a ∈ (dedupe d tol l).2, a ∈ l := by
  intro a ha
  have h₁ := (markDups_snd_sublist d tol (fun _ => none)
    (List.insertionSort d.le l)).mem ha
  exact (List.mem_insertionSort d.le).1 h₁

theorem sorted_dedupeSort (d : DProf α) (l : List α) :
    List.Sorted d.le (List.insertionSort d.le l) := by
  haveI : IsTotal α d.le := ⟨fun a b => rowLe_total _ _⟩
  haveI : IsTrans α d.le := ⟨fun _ _ _ h₁ h₂ => rowLe_trans h₁ h₂⟩
  exact List.sorted_insertionSort d.le l

theorem DProf.le_time_of_key_eq (d : DProf α)
    (hrank : ∀ a b : α, d.rank a = d.rank b) {a b : α}
    (h : d.le a b) (hk : d.key a = d.key b) : d.time a ≤ d.time b := by
  unfold DProf.le DProf.meas at h
  have hr := hrank a b
  cases hka : d.key a with
  | none =>
    rw [hka] at h hk
    rw [← hk] at h
    unfold rowLe at h
    simp only at h
    omega
  | some k =>
    obtain ⟨k1, k2, k3⟩ := k
    rw [hka] at h hk
    rw [← hk] at h
    unfold rowLe at h
    simp only at h
    omega

/-- Core idempotence sweep lemma: rerunning the duplicate-marking sweep
on the kept rows of a first sweep finds nothing new, provided rows of
equal key appear in nondecreasing time order and the second sweep's
`last` state is dominated by the first's. -/
theorem markDups_idem (d : DProf α) (tol : Int) :
    ∀ (l : List α) (last₁ last₂ : DKey → Option Int),
    List.Pairwise (fun a b => d.key a = d.key b → d.time a ≤ d.time b) l →
    (∀ a ∈ l, ∀ k t, d.key a = some k → last₁ k = some t → t ≤ d.time a) →
    (∀ k t₂, last₂ k = some t₂ → ∃ t₁, last₁ k = some t₁ ∧ t₂ ≤ t₁) →
    markDups d tol last₂ (markDups d tol last₁ l).1 =
      ((markDups d tol last₁ l).1, []) := by
  intro l
  induction l with
  | nil => intro last₁ last₂ _ _ _; rfl
  | cons a l ih =>
    intro last₁ last₂ hPW h₁ hI
    have hPWtail := hPW.tail
    have hPWhead : ∀ b ∈ l, d.key a = d.key b → d.time a ≤ d.time b :=
      fun b hb => (List.pairwise_cons.mp hPW).1 b hb
    have h₁tail : ∀ b ∈ l, ∀ k t, d.key b = some k → last₁ k = some t →
        t ≤ d.time b :=
      fun b hb => h₁ b (List.mem_cons_of_mem a hb)
    cases hka : d.key a with
    | none =>
      rw [markDups_cons_none d tol last₁ l hka]
      dsimp only
      rw [markDups_cons_none d tol last₂ _ hka,
        ih last₁ last₂ hPWtail h₁tail hI]
    | some k =>
      have h₁u : ∀ b ∈ l, ∀ k' t, d.key b = some k' →
          updLast d a k last₁ k' = some t → t ≤ d.time b := by
        intro b hb k' t hkb hl
        unfold updLast at hl
        by_cases hkk : k' = k
        · rw [if_pos hkk] at hl
          obtain rfl : d.time a = t := Option.some.inj hl
          exact hPWhead b hb (by rw [hka, hkb, hkk])
        · rw [if_neg hkk] at hl
          exact h₁tail b hb k' t hkb hl
      rw [markDups_cons_some d tol last₁ l hka]
      cases hdup : dupFlag d tol a k last₁ with
      | true =>
        rw [if_pos rfl]
        dsimp only
        have hIu : ∀ k₀ t₂, last₂ k₀ = some t₂ →
            ∃ t₁, updLast d a k last₁ k₀ = some t₁ ∧ t₂ ≤ t₁ := by
          intro k₀ t₂ hl₂
          obtain ⟨t₁, hl₁, hle⟩ := hI k₀ t₂ hl₂
          unfold updLast
          by_cases hkk : k₀ = k
          · subst hkk
            rw [if_pos rfl]
            have := h₁ a (List.mem_cons_self a l) k₀ t₁ hka hl₁
            exact ⟨d.time a, rfl, by omega⟩
          · rw [if_neg hkk]
            exact ⟨t₁, hl₁, hle⟩
        exact ih (updLast d a k last₁) last₂ hPWtail h₁u hIu
      | false =>
        rw [if_neg (by simp)]
        dsimp only
        have hdup₂ : dupFlag d tol a k last₂ = false := by
          unfold dupFlag at hdup ⊢
          cases hl₂ : last₂ k with
          | none => rfl
          | some t₂ =>
            obtain ⟨t₁, hl₁, hle⟩ := hI k t₂ hl₂
            rw [hl₁] at hdup
            have hta := h₁ a (List.mem_cons_self a l) k t₁ hka hl₁
            simp only [decide_eq_false_iff_not] at hdup ⊢
            intro hcon
            rw [abs_of_nonneg (by omega)] at hdup hcon
            omega
        have hIu : ∀ k₀ t₂, updLast d a k last₂ k₀ = some t₂ →
            ∃ t₁, updLast d a k last₁ k₀ = some t₁ ∧ t₂ ≤ t₁ := by
          intro k₀ t₂ hl₂
          unfold updLast at hl₂ ⊢
          by_cases hkk : k₀ = k
          · rw [if_pos hkk] at hl₂ ⊢
            exact ⟨d.time a, rfl, le_of_eq (Option.some.inj hl₂).symm⟩
          · rw [if_neg hkk] at hl₂ ⊢
            exact hI k₀ t₂ hl₂
        rw [markDups_cons_some d tol last₂ _ hka, if_neg (by simp [hdup₂]),
          ih (updLast d a k last₁) (updLast d a k last₂) hPWtail h₁u hIu]

/-- Idempotence of `dedupe` for profiles whose sort rank is constant
(as in step 22, where the sort key is exactly the dedup key plus time). -/
theorem dedupe_idem_of_const_rank (d : DProf α)
    (hrank : ∀ a b : α, d.rank a = d.rank b) (tol : Int) (l : List α) :
    dedupe d tol (dedupe d tol l).1 = ((dedupe d tol l).1, []) := by
  set s := List.insertionSort d.le l with hs
  have hsorted : List.Sorted d.le s := sorted_dedupeSort d l
  have hkept : (markDups d tol (fun _ => none) s).1.Sublist s :=
    markDups_fst_sublist d tol _ s
  have hksorted : List.Sorted d.le (markDups d tol (fun _ => none) s).1 :=
    hsorted.sublist hkept
  have hPW : List.Pairwise (fun a b => d.key a = d.key b → d.time a ≤ d.time b) s :=
    hsorted.imp (fun hab hk => d.le_time_of_key_eq hrank hab hk)
  unfold dedupe
  rw [hksorted.insertionSort_eq]
  exact markDups_idem d tol s (fun _ => none) (fun _ => none) hPW
    (fun _ _ _ _ _ h => by cases h) (fun _ _ h => by cases h)

/-- Pick priority: primary picks come from per-event authoritative PHA
files, secondary picks from monthly listings (`pick_priority`). -/
inductive PickPriority where
  | primary
  | secondary
deriving DecidableEq

/-- `_pri_rank` in `dedupe_picks_within_event`: primary sorts before
secondary. -/
def priRank : PickPriority → Nat
  | .primary => 0
  | .secondary => 1

/-- One row of a pick table (steps 22/32): `pick_id`, the provenance
group (`event_id` for primary picks, `monthly_block_id` for secondary),
the normalized SEED id, phase, pick time and priority. -/
structure PickRow where
  pid : Nat
  grp : Nat
  seed : Nat
  phase : Nat
  time : Int
  pri : PickPriority
deriving DecidableEq

/-- Sort/group profile of `dedupe_within_group` (step 22): sort by
`(group, seed_norm, phase, time)`, diff within `(group, seed_norm,
phase)`. -/
def groupProf : DProf PickRow :=
  ⟨fun _ => 0, fun p => some (p.grp, p.seed, p.phase), fun p => p.time⟩

/-- `dedupe_within_group` of `22_merge_picks.py`: returns
`(kept, suppressed)`. -/
def dedupe_within_group (tol : Int) (l : List PickRow) : List PickRow × List PickRow :=
  dedupe groupProf tol l

/-- Sort/group profile of `dedupe_picks_within_event` (step 32): sort by
`(_pri_rank, seed_norm, phase, time)`, diff within `(seed_norm, phase)`. -/
def eventProf : DProf PickRow :=
  ⟨fun p => priRank p.pri, fun p => some (p.seed, p.phase, 0), fun p => p.time⟩

/-- `dedupe_picks_within_event` of `32_build_waveform_pick_events.py`:
returns `(kept, dropped)`. -/
def dedupe_picks_within_event (tol : Int) (l : List PickRow) :
    List PickRow × List PickRow :=
  dedupe eventProf tol l

theorem DProf.le_rank_le (d : DProf α) {a b : α} (h : d.le a b) :
    d.rank a ≤ d.rank b := by
  unfold DProf.le DProf.meas at h
  cases hka : d.key a with
  | none =>
    rw [hka] at h
    cases hkb : d.key b with
    | none => rw [hkb] at h; unfold rowLe at h; simp only at h; omega
    | some kb =>
      obtain ⟨b1, b2, b3⟩ := kb
      rw [hkb] at h; unfold rowLe at h; simp only at h; omega
  | some ka =>
    obtain ⟨a1, a2, a3⟩ := ka
    rw [hka] at h
    cases hkb : d.key b with
    | none => rw [hkb] at h; unfold rowLe at h; simp only at h; omega
    | some kb =>
      obtain ⟨b1, b2, b3⟩ := kb
      rw [hkb] at h; unfold rowLe at h; simp only at h; omega

theorem DProf.le_time_of_key_rank_eq (d : DProf α) {a b : α}
    (h : d.le a b) (hk : d.key a = d.key b) (hr : d.rank a = d.rank b) :
    d.time a ≤ d.time b := by
  unfold DProf.le DProf.meas at h
  cases hka : d.key a with
  | none =>
    rw [hka] at h hk
    rw [← hk] at h
    unfold rowLe at h
    simp only at h
    omega
  | some k =>
    obtain ⟨k1, k2, k3⟩ := k
    rw [hka] at h hk
    rw [← hk] at h
    unfold rowLe at h
    simp only at h
    omega

/-- Every suppressed row has a cause: an earlier (in sort order) row of
the same key within `tol` of it.  `L` is the ambient row set, `last`
carries causes for the already-swept prefix. -/
theorem markDups_dropped_cause (d : DProf α) (tol : Int) :
    ∀ (l : List α) (L : List α) (last : DKey → Option Int),
    List.Sorted d.le l →
    (∀ x ∈ l, x ∈ L) →
    (∀ k t, last k = some t →
      ∃ q ∈ L, d.key q = some k ∧ d.time q = t ∧ ∀ x ∈ l, d.le q x) →
    ∀ p ∈ (markDups d tol last l).2,
      ∃ q ∈ L, d.key q = d.key p ∧ |d.time p - d.time q| ≤ tol ∧ d.le q p := by
  intro l
  induction l with
  | nil => intro L last _ _ _ p hp; rw [markDups_nil] at hp; cases hp
  | cons a l ih =>
    intro L last hsorted hsub hlast p hp
    have hsub' : ∀ x ∈ l, x ∈ L := fun x hx => hsub x (List.mem_cons_of_mem a hx)
    cases hka : d.key a with
    | none =>
      rw [markDups_cons_none d tol last l hka] at hp
      exact ih L last hsorted.of_cons hsub'
        (fun k t hl => by
          obtain ⟨q, hqL, hqk, hqt, hqle⟩ := hlast k t hl
          exact ⟨q, hqL, hqk, hqt, fun x hx => hqle x (List.mem_cons_of_mem a hx)⟩)
        p hp
    | some k =>
      have hlast' : ∀ k₀ t, updLast d a k last k₀ = some t →
          ∃ q ∈ L, d.key q = some k₀ ∧ d.time q = t ∧ ∀ x ∈ l, d.le q x := by
        intro k₀ t hl
        unfold updLast at hl
        by_cases hkk : k₀ = k
        · rw [if_pos hkk] at hl
          obtain rfl : d.time a = t := Option.some.inj hl
          subst hkk
          exact ⟨a, hsub a (List.mem_cons_self a l), hka, rfl,
            fun x hx => List.rel_of_sorted_cons hsorted x hx⟩
        · rw [if_neg hkk] at hl
          obtain ⟨q, hqL, hqk, hqt, hqle⟩ := hlast k₀ t hl
          exact ⟨q, hqL, hqk, hqt, fun x hx => hqle x (List.mem_cons_of_mem a hx)⟩
      rw [markDups_cons_some d tol last l hka] at hp
      cases hdup : dupFlag d tol a k last with
      | true =>
        rw [if_pos hdup] at hp
        rcases List.mem_cons.mp hp with rfl | hp'
        · unfold dupFlag at hdup
          cases hl : last k with
          | none => rw [hl] at hdup; cases hdup
          | some t =>
            rw [hl] at hdup
            have habs : |d.time p - t| ≤ tol := of_decide_eq_true hdup
            obtain ⟨q, hqL, hqk, hqt, hqle⟩ := hlast k t hl
            exact ⟨q, hqL, by rw [hqk, hka], by rw [hqt]; exact habs,
              hqle p (List.mem_cons_self p l)⟩
        · exact ih L (updLast d a k last) hsorted.of_cons hsub' hlast' p hp'
      | false =>
        rw [if_neg (by simp [hdup])] at hp
        exact ih L (updLast d a k last) hsorted.of_cons hsub' hlast' p hp

/-- C4: The Pick Deduplicator is idempotent: for every pick table
and every tolerance, applying `dedupe_within_group` to its own kept
output returns that output unchanged with an empty suppressed set. -/
theorem C4_dedupe_within_group_idempotent (tol : Int) (l : List PickRow) :
    dedupe_within_group tol (dedupe_within_group tol l).1 =
      ((dedupe_within_group tol l).1, []) :=
  dedupe_idem_of_const_rank groupProf (fun _ _ => rfl) tol l

/-- C8: The dedup tolerance boundary is inclusive: for a pair of
picks with identical `(identity, phase)` in one group, a time difference
exactly equal to the tolerance marks the later pick as a duplicate
(dropped), while a strictly greater difference keeps both picks. -/
theorem C8_dedup_tolerance_boundary_inclusive (tol : Int) (p q : PickRow)
    (h0 : 0 ≤ tol) (hg : p.grp = q.grp) (hs : p.seed = q.seed)
    (hph : p.phase = q.phase) :
    (q.time - p.time = tol → dedupe_within_group tol [p, q] = ([p], [q])) ∧
    (tol < q.time - p.time → dedupe_within_group tol [p, q] = ([p, q], [])) := by
  have hmp : groupProf.meas p = ⟨0, 0, p.grp, p.seed, p.phase, p.time⟩ := rfl
  have hmq : groupProf.meas q = ⟨0, 0, q.grp, q.seed, q.phase, q.time⟩ := rfl
  have hkk : ((q.grp, q.seed, q.phase) : DKey) = (p.grp, p.seed, p.phase) := by
    rw [hg, hs, hph]
  have main : ∀ ht : p.time ≤ q.time,
      dedupe_within_group tol [p, q] =
        (if dupFlag groupProf tol q (q.grp, q.seed, q.phase)
            (updLast groupProf p (p.grp, p.seed, p.phase) (fun _ => none))
          then ([p], [q]) else ([p, q], [])) := by
    intro ht
    have hle : groupProf.le p q := by
      unfold DProf.le
      rw [hmp, hmq]
      unfold rowLe
      exact Or.inr ⟨rfl, Or.inr ⟨rfl, Or.inr ⟨hg, Or.inr ⟨hs, Or.inr ⟨hph, ht⟩⟩⟩⟩⟩
    have hsort : List.insertionSort groupProf.le [p, q] = [p, q] := by
      apply List.Sorted.insertionSort_eq
      exact List.sorted_cons.mpr
        ⟨fun b hb => by rw [List.mem_singleton.mp hb]; exact hle,
         List.sorted_singleton q⟩
    unfold dedupe_within_group dedupe
    rw [hsort]
    rw [markDups_cons_some groupProf tol _ _
      (show groupProf.key p = some (p.grp, p.seed, p.phase) from rfl)]
    rw [if_neg (by simp [dupFlag])]
    rw [markDups_cons_some groupProf tol _ _
      (show groupProf.key q = some (q.grp, q.seed, q.phase) from rfl)]
    cases hflag : dupFlag groupProf tol q (q.grp, q.seed, q.phase)
        (updLast groupProf p (p.grp, p.seed, p.phase) (fun _ => none)) with
    | true => simp [markDups_nil]
    | false => simp [markDups_nil]
  constructor
  · intro ht
    have hflag : dupFlag groupProf tol q (q.grp, q.seed, q.phase)
        (updLast groupProf p (p.grp, p.seed, p.phase) (fun _ => none)) = true := by
      unfold dupFlag updLast
      rw [if_pos hkk]
      simp only [decide_eq_true_eq]
      have : (q.time : Int) - p.time = tol := ht
      rw [show groupProf.time q = q.time from rfl,
        show groupProf.time p = p.time from rfl, this, abs_of_nonneg h0]
    rw [main (by omega), hflag, if_pos rfl]
  · intro ht
    have hflag : dupFlag groupProf tol q (q.grp, q.seed, q.phase)
        (updLast groupProf p (p.grp, p.seed, p.phase) (fun _ => none)) = false := by
      unfold dupFlag updLast
      rw [if_pos hkk]
      simp only [decide_eq_false_iff_not]
      rw [show groupProf.time q = q.time from rfl,
        show groupProf.time p = p.time from rfl]
      intro hcon
      rw [abs_of_nonneg (by omega)] at hcon
      omega
    rw [main (by omega), hflag, if_neg (by simp)]

/-- Witness for C8 at a concrete pair: tolerance 500, difference exactly
500 drops the later pick; difference 501 keeps both. -/
theorem C8_dedup_tolerance_boundary_inclusive_witness :
    dedupe_within_group 500 [⟨1, 7, 3, 1, 1000, .primary⟩, ⟨2, 7, 3, 1, 1500, .primary⟩] =
      ([⟨1, 7, 3, 1, 1000, .primary⟩], [⟨2, 7, 3, 1, 1500, .primary⟩]) ∧
    dedupe_within_group 500 [⟨1, 7, 3, 1, 1000, .primary⟩, ⟨2, 7, 3, 1, 1501, .primary⟩] =
      ([⟨1, 7, 3, 1, 1000, .primary⟩, ⟨2, 7, 3, 1, 1501, .primary⟩], []) :=
  ⟨(C8_dedup_tolerance_boundary_inclusive 500 ⟨1, 7, 3, 1, 1000, .primary⟩
      ⟨2, 7, 3, 1, 1500, .primary⟩ (by decide) rfl rfl rfl).1 (by decide),
   (C8_dedup_tolerance_boundary_inclusive 500 ⟨1, 7, 3, 1, 1000, .primary⟩
      ⟨2, 7, 3, 1, 1501, .primary⟩ (by decide) rfl rfl rfl).2 (by decide)⟩

/-- C5: In `dedupe_picks_within_event`, a primary pick is never
dropped in favor of a secondary pick: primary rows sort before secondary
rows, so a dropped primary pick always has a primary cause — another
primary pick of the same `(identity, phase)` no later than it and within
the tolerance. -/
theorem C5_primary_never_dropped_for_secondary (tol : Int)
    (l : List PickRow) (p : PickRow)
    (hp : p ∈ (dedupe_picks_within_event tol l).2)
    (hpri : p.pri = PickPriority.primary) :
    ∃ q ∈ l, q.pri = PickPriority.primary ∧ q.seed = p.seed ∧
      q.phase = p.phase ∧ q.time ≤ p.time ∧ p.time - q.time ≤ tol := by
  unfold dedupe_picks_within_event dedupe at hp
  obtain ⟨q, hqL, hqk, habs, hqle⟩ := markDups_dropped_cause eventProf tol
    (List.insertionSort eventProf.le l) l (fun _ => none)
    (sorted_dedupeSort eventProf l)
    (fun x hx => (List.mem_insertionSort eventProf.le).1 hx)
    (fun _ _ h => by cases h) p hp
  have hkq : eventProf.key q = some (q.seed, q.phase, 0) := rfl
  have hkp : eventProf.key p = some (p.seed, p.phase, 0) := rfl
  rw [hkq, hkp, Option.some_inj, Prod.mk.injEq, Prod.mk.injEq] at hqk
  obtain ⟨hseed, hphase, -⟩ := hqk
  have hrank : eventProf.rank q ≤ eventProf.rank p := DProf.le_rank_le eventProf hqle
  have hrp : eventProf.rank p = 0 := by
    show priRank p.pri = 0
    rw [hpri]
    rfl
  have hqpri : q.pri = PickPriority.primary := by
    cases hq : q.pri with
    | primary => rfl
    | secondary =>
      exfalso
      have : eventProf.rank q = 1 := by
        show priRank q.pri = 1
        rw [hq]
        rfl
      omega
  have hrq : eventProf.rank q = 0 := by
    show priRank q.pri = 0
    rw [hqpri]
    rfl
  have htime : q.time ≤ p.time := by
    have := DProf.le_time_of_key_rank_eq eventProf hqle
      (by rw [hkq, hkp, hseed, hphase]) (by rw [hrq, hrp])
    exact this
  refine ⟨q, hqL, hqpri, hseed, hphase, htime, ?_⟩
  have habs' : |p.time - q.time| ≤ tol := habs
  rw [abs_of_nonneg (by omega)] at habs'
  exact habs'

/-- Witness for C5: a primary pick dropped at a concrete input; its
cause is a primary pick. -/
theorem C5_primary_never_dropped_for_secondary_witness :
    (⟨2, 0, 3, 1, 300, .primary⟩ : PickRow) ∈
      (dedupe_picks_within_event 500
        [⟨1, 0, 3, 1, 0, .primary⟩, ⟨2, 0, 3, 1, 300, .primary⟩]).2 ∧
    ∃ q ∈ [(⟨1, 0, 3, 1, 0, .primary⟩ : PickRow), ⟨2, 0, 3, 1, 300, .primary⟩],
      q.pri = PickPriority.primary ∧ q.seed = 3 ∧ q.phase = 1 ∧
      q.time ≤ 300 ∧ (300 : Int) - q.time ≤ 500 :=
  ⟨by decide, C5_primary_never_dropped_for_secondary 500
    [⟨1, 0, 3, 1, 0, .primary⟩, ⟨2, 0, 3, 1, 300, .primary⟩]
    ⟨2, 0, 3, 1, 300, .primary⟩ (by decide) rfl⟩

/-- One origin row of `43_associate_hypocenters.py` after normalization:
`origin_id`, `origin_time`, location, and the producing `source`
(`hypo40` / `pinaall`, modelled as a number). -/
structure Origin where
  oid : Nat
  time : Int
  lat : Int
  lon : Int
  src : Nat
deriving DecidableEq

/-- `sort_values("origin_time")` order. -/
def timeLe (a b : Origin) : Prop := a.time ≤ b.time

instance timeLe.decidable : DecidableRel timeLe :=
  fun a b => inferInstanceAs (Decidable (a.time ≤ b.time))

/-- The inner scan of the association loop: starting from the cluster
anchor (`row`), walk the strictly later **unassigned** origins in time
order; stop (`break`) at the first whose time delta **from the anchor**
exceeds `time_tol`; origins within the time delta join the cluster iff
their great-circle distance from the anchor is within `dist_tol`.
`dist` abstracts obspy's `locations2degrees`/`degrees2kilometers`
(an external library).  Returns `(new members, still unassigned)`. -/
def scanCluster (dist : Origin → Origin → Int) (ttol dtol : Int)
    (anchor : Origin) : List Origin → List Origin × List Origin
  | [] => ([], [])
  | o :: l =>
    if |o.time - anchor.time| > ttol then ([], o :: l)
    else if dist anchor o ≤ dtol then
      let r := scanCluster dist ttol dtol anchor l
      (o :: r.1, r.2)
    else
      let r := scanCluster dist ttol dtol anchor l
      (r.1, o :: r.2)

theorem scanCluster_fst_sublist (dist : Origin → Origin → Int)
    (ttol dtol : Int) (anchor : Origin) (l : List Origin) :
    (scanCluster dist ttol dtol anchor l).1.Sublist l := by
  induction l with
  | nil => simp [scanCluster]
  | cons o l ih =>
    unfold scanCluster
    split
    · exact List.nil_sublist _
    · split
      · exact ih.cons₂ o
      · exact ih.cons o

theorem scanCluster_snd_sublist (dist : Origin → Origin → Int)
    (ttol dtol : Int) (anchor : Origin) (l : List Origin) :
    (scanCluster dist ttol dtol anchor l).2.Sublist l := by
  induction l with
  | nil => simp [scanCluster]
  | cons o l ih =>
    unfold scanCluster
    split
    · exact List.Sublist.refl _
    · split
      · exact ih.cons o
      · exact ih.cons₂ o

/-- The outer association loop: repeatedly open a cluster at the first
unassigned origin and collect members by `scanCluster`.  `fuel` bounds
the recursion (any `fuel ≥ length` gives the loop of the source). -/
def clustersGo (dist : Origin → Origin → Int) (ttol dtol : Int) :
    Nat → List Origin → List (List Origin)
  | 0, _ => []
  | _ + 1, [] => []
  | fuel + 1, o :: l =>
    let r := scanCluster dist ttol dtol o l
    (o :: r.1) :: clustersGo dist ttol dtol fuel r.2

/-- The event-association phase of `43_associate_hypocenters.py`
(`main`, "Event association" loop): sort all origins by time, then
greedily form anchor-linked clusters. -/
def associate_hypocenters (dist : Origin → Origin → Int) (ttol dtol : Int)
    (l : List Origin) : List (List Origin) :=
  clustersGo dist ttol dtol (List.insertionSort timeLe l).length
    (List.insertionSort timeLe l)

/-- Preferred-origin selection inside one cluster: the first member in
time order whose `source` is the preferred source, else the first
member (`preferred.iloc[[0]] if not preferred.empty else group.iloc[[0]]`). -/
def preferredOrigin (pref : Nat) (g : List Origin) : Option Origin :=
  match g.find? (fun o => decide (o.src = pref)) with
  | some o => some o
  | none => g.head?

theorem clustersGo_sorted (dist : Origin → Origin → Int) (ttol dtol : Int) :
    ∀ (fuel : Nat) (l : List Origin), List.Sorted timeLe l →
    ∀ g ∈ clustersGo dist ttol dtol fuel l, List.Sorted timeLe g ∧ g ≠ [] := by
  intro fuel
  induction fuel with
  | zero => intro l _ g hg; cases hg
  | succ fuel ih =>
    intro l hsort g hg
    cases l with
    | nil => cases hg
    | cons o l =>
      rw [clustersGo] at hg
      rcases List.mem_cons.mp hg with rfl | hg'
      · constructor
        · exact List.sorted_cons.mpr
            ⟨fun b hb => List.rel_of_sorted_cons hsort b
              ((scanCluster_fst_sublist dist ttol dtol o l).mem hb),
             hsort.of_cons.sublist (scanCluster_fst_sublist dist ttol dtol o l)⟩
        · simp
      · exact ih _ (hsort.of_cons.sublist (scanCluster_snd_sublist dist ttol dtol o l)) g hg'

theorem find_first_match_min (pref : Nat) :
    ∀ g : List Origin, List.Sorted timeLe g →
    ∀ p, g.find? (fun o => decide (o.src = pref)) = some p →
      p.src = pref ∧ p ∈ g ∧ ∀ o ∈ g, o.src = pref → p.time ≤ o.time := by
  intro g
  induction g with
  | nil => intro _ p hp; cases hp
  | cons a g ih =>
    intro hsort p hp
    by_cases ha : a.src = pref
    · rw [List.find?_cons_of_pos _ (by simpa using ha)] at hp
      obtain rfl : a = p := Option.some.inj hp
      refine ⟨ha, List.mem_cons_self a g, ?_⟩
      intro o ho _
      rcases List.mem_cons.mp ho with rfl | ho'
      · exact le_refl _
      · exact List.rel_of_sorted_cons hsort o ho'
    · rw [List.find?_cons_of_neg _ (by simpa using ha)] at hp
      obtain ⟨hps, hpm, hmin⟩ := ih hsort.of_cons p hp
      refine ⟨hps, List.mem_cons_of_mem a hpm, ?_⟩
      intro o ho hos
      rcases List.mem_cons.mp ho with rfl | ho'
      · exact absurd hos ha
      · exact hmin o ho' hos

theorem sorted_sortByTime (l : List Origin) :
    List.Sorted timeLe (List.insertionSort timeLe l) := by
  haveI : IsTotal Origin timeLe := ⟨fun a b => Int.le_total a.time b.time⟩
  haveI : IsTrans Origin timeLe := ⟨fun _ _ _ h₁ h₂ => le_trans h₁ h₂⟩
  exact List.sorted_insertionSort timeLe l

/-- C7: within every cluster produced by the Hypocenter Clusterer,
the preferred origin is the chronologically first member whose source is
the configured preferred source, and when no member has that source it
is the chronologically first member of the cluster. -/
theorem C7_preferred_origin_selection (dist : Origin → Origin → Int)
    (ttol dtol : Int) (pref : Nat) (l : List Origin) (g : List Origin)
    (hg : g ∈ associate_hypocenters dist ttol dtol l) :
    ((∃ o ∈ g, o.src = pref) →
      ∃ p, preferredOrigin pref g = some p ∧ p ∈ g ∧ p.src = pref ∧
        ∀ o ∈ g, o.src = pref → p.time ≤ o.time) ∧
    ((∀ o ∈ g, o.src ≠ pref) →
      ∃ p, preferredOrigin pref g = some p ∧ p ∈ g ∧
        ∀ o ∈ g, p.time ≤ o.time) := by
  obtain ⟨hsort, hne⟩ := clustersGo_sorted dist ttol dtol _ _
    (sorted_sortByTime l) g hg
  constructor
  · rintro ⟨o, ho, hos⟩
    cases hfind : g.find? (fun o => decide (o.src = pref)) with
    | none =>
      exact absurd hos (by simpa using List.find?_eq_none.mp hfind o ho)
    | some p =>
      obtain ⟨hps, hpm, hmin⟩ := find_first_match_min pref g hsort p hfind
      refine ⟨p, ?_, hpm, hps, hmin⟩
      unfold preferredOrigin
      rw [hfind]
  · intro hnone
    have hfind : g.find? (fun o => decide (o.src = pref)) = none :=
      List.find?_eq_none.mpr (fun x hx => by simpa using hnone x hx)
    cases g with
    | nil => exact absurd rfl hne
    | cons a g' =>
      refine ⟨a, ?_, List.mem_cons_self a g', ?_⟩
      · unfold preferredOrigin
        rw [hfind]
        rfl
      · intro o ho
        rcases List.mem_cons.mp ho with rfl | ho'
        · exact le_refl _
        · exact List.rel_of_sorted_cons hsort o ho'

/-- Witness for C7 at a concrete two-origin cluster: the preferred
source appears only in the later member, which is selected. -/
theorem C7_preferred_origin_selection_witness :
    [(⟨0, 0, 0, 0, 1⟩ : Origin), ⟨1, 3, 0, 0, 2⟩] ∈
      associate_hypocenters (fun _ _ => 0) 5 0
        [⟨0, 0, 0, 0, 1⟩, ⟨1, 3, 0, 0, 2⟩] ∧
    ∃ p, preferredOrigin 2 [(⟨0, 0, 0, 0, 1⟩ : Origin), ⟨1, 3, 0, 0, 2⟩] = some p ∧
      p ∈ [(⟨0, 0, 0, 0, 1⟩ : Origin), ⟨1, 3, 0, 0, 2⟩] ∧ p.src = 2 ∧
      ∀ o ∈ [(⟨0, 0, 0, 0, 1⟩ : Origin), ⟨1, 3, 0, 0, 2⟩], o.src = 2 → p.time ≤ o.time :=
  ⟨by decide,
    (C7_preferred_origin_selection (fun _ _ => 0) 5 0 2
      [⟨0, 0, 0, 0, 1⟩, ⟨1, 3, 0, 0, 2⟩]
      [⟨0, 0, 0, 0, 1⟩, ⟨1, 3, 0, 0, 2⟩] (by decide)).1
      ⟨⟨1, 3, 0, 0, 2⟩, by decide, rfl⟩⟩

/-- C3 counterexample: three origins at the same location with times
`0`, `tol`, `2·tol` (here `tol = 5`) are *not* all placed in one
cluster: the scan measures deltas from the cluster anchor, so the third
origin is excluded. -/
theorem C3_counterexample :
    ¬ ∃ g ∈ associate_hypocenters (fun _ _ => 0) 5 0
        [⟨0, 0, 0, 0, 0⟩, ⟨1, 5, 0, 0, 0⟩, ⟨2, 10, 0, 0, 0⟩],
      (⟨0, 0, 0, 0, 0⟩ : Origin) ∈ g ∧ (⟨1, 5, 0, 0, 0⟩ : Origin) ∈ g ∧
        (⟨2, 10, 0, 0, 0⟩ : Origin) ∈ g := by
  decide

theorem clustersGo_cons (dist : Origin → Origin → Int) (ttol dtol : Int)
    (fuel : Nat) (o : Origin) (l : List Origin) :
    clustersGo dist ttol dtol (fuel + 1) (o :: l) =
      (o :: (scanCluster dist ttol dtol o l).1) ::
        clustersGo dist ttol dtol fuel (scanCluster dist ttol dtol o l).2 := rfl

/-- C3 amended: the Hypocenter Clusterer uses anchor linkage, not
chain linkage: for three same-location origins at `t = 0`, `tol`,
`2·tol`, the first two form one cluster and the third — although within
`tol` of its predecessor — opens a second cluster, because the scan
breaks once the delta from the cluster anchor exceeds `tol`. -/
theorem C3_anchor_linkage (dist : Origin → Origin → Int) (ttol dtol : Int)
    (a b c : Origin) (h0 : 0 < ttol) (hta : a.time = 0) (htb : b.time = ttol)
    (htc : c.time = 2 * ttol) (hd : dist a b ≤ dtol) :
    associate_hypocenters dist ttol dtol [a, b, c] = [[a, b], [c]] := by
  have hsorted : List.Sorted timeLe [a, b, c] := by
    refine List.sorted_cons.mpr ⟨?_, List.sorted_cons.mpr ⟨?_, List.sorted_singleton c⟩⟩
    · intro x hx
      rcases List.mem_cons.mp hx with rfl | hx'
      · show a.time ≤ x.time
        omega
      · rw [List.mem_singleton.mp hx']
        show a.time ≤ c.time
        omega
    · intro x hx
      rw [List.mem_singleton.mp hx]
      show b.time ≤ c.time
      omega
  have hs : List.insertionSort timeLe [a, b, c] = [a, b, c] :=
    hsorted.insertionSort_eq
  have hscan2 : scanCluster dist ttol dtol a [c] = ([], [c]) := by
    unfold scanCluster
    rw [if_pos]
    rw [hta, htc]
    rw [show (2 * ttol - 0 : Int) = 2 * ttol by ring, abs_of_nonneg (by omega)]
    omega
  have hscan1 : scanCluster dist ttol dtol a [b, c] = ([b], [c]) := by
    unfold scanCluster
    rw [if_neg (by
      rw [hta, htb, show (ttol - 0 : Int) = ttol by ring, abs_of_nonneg (by omega)]
      omega), if_pos hd]
    dsimp only
    rw [hscan2]
  have h3 : associate_hypocenters dist ttol dtol [a, b, c] =
      clustersGo dist ttol dtol 3 [a, b, c] := by
    unfold associate_hypocenters
    rw [hs]
    rfl
  rw [h3, show (3 : Nat) = 2 + 1 from rfl, clustersGo_cons, hscan1]
  dsimp only
  rw [show (2 : Nat) = 1 + 1 from rfl, clustersGo_cons]
  rfl

/-- Witness for the amended C3 at `tol = 5`: clusters `{t=0, t=5}` and
`{t=10}`. -/
theorem C3_anchor_linkage_witness :
    associate_hypocenters (fun _ _ => 0) 5 0
        [⟨0, 0, 0, 0, 0⟩, ⟨1, 5, 0, 0, 0⟩, ⟨2, 10, 0, 0, 0⟩] =
      [[⟨0, 0, 0, 0, 0⟩, ⟨1, 5, 0, 0, 0⟩], [⟨2, 10, 0, 0, 0⟩]] :=
  C3_anchor_linkage (fun _ _ => 0) 5 0 ⟨0, 0, 0, 0, 0⟩ ⟨1, 5, 0, 0, 0⟩
    ⟨2, 10, 0, 0, 0⟩ (by decide) rfl rfl rfl (by decide)

/-- One row of the STEP 10 waveform index: `event_id` (the waveform id),
`starttime`, `endtime`. -/
structure WavRow where
  wid : Nat
  wstart : Int
  wend : Int
deriving DecidableEq

/-- One row of the STEP 30 individual-pick-to-waveform map: `pick_id`,
`waveform_id`, `time_offset_from_start`. -/
structure MapRow where
  pid : Nat
  wid : Nat
  off : Int
deriving DecidableEq

/-- One row of `ind_full`: a STEP 30 map row left-joined with the
matching primary pick (`info`, `none` when the merge finds no primary
row) and with the waveform `starttime` attached. -/
structure IndRow where
  pid : Nat
  wid : Nat
  off : Int
  info : Option PickRow
  wstart : Int
deriving DecidableEq

def primary_picks (ps : List PickRow) : List PickRow :=
  ps.filter (fun p => decide (p.pri = PickPriority.primary))

def secondary_picks (ps : List PickRow) : List PickRow :=
  ps.filter (fun p => decide (p.pri = PickPriority.secondary))

/-- Dedup profile for the authoritative (`ind`) rows of one waveform
event: all carry `pick_priority = "primary"` (constant rank); the key is
the joined pick's `(seed_norm, phase)` (missing when the left join found
no primary row — pandas NaN key); the time is the reconstructed pick
time `starttime + time_offset_from_start`. -/
def indProf : DProf IndRow :=
  ⟨fun _ => 0, fun r => r.info.map (fun q => (q.seed, q.phase, 0)),
   fun r => r.wstart + r.off⟩

/-- `ind_full_good` restricted to one waveform row: the STEP 30 rows for
this `waveform_id`, joined with the primary pick of the same `pick_id`
(pandas `merge(..., how="left", validate="many_to_one")`). -/
def indRowsFor (ps : List PickRow) (ms : List MapRow) (w : WavRow) : List IndRow :=
  (ms.filter (fun m => decide (m.wid = w.wid))).map
    (fun m => ⟨m.pid, m.wid, m.off,
      (primary_picks ps).find? (fun p => decide (p.pid = m.pid)), w.wstart⟩)

/-- Kept authoritative pick ids of one waveform event (after the
event-local dedupe). -/
def indKeepPids (ps : List PickRow) (ms : List MapRow) (tol : Int)
    (w : WavRow) : List Nat :=
  (dedupe indProf tol (indRowsFor ps ms w)).1.map IndRow.pid

/-- The monthly (secondary) picks eligible for one waveform event:
inside the window `[start - tol, end + tol]` and not already assigned. -/
def monRows (ps : List PickRow) (tol : Int) (w : WavRow)
    (assigned : List Nat) : List PickRow :=
  (secondary_picks ps).filter
    (fun p => decide (w.wstart - tol ≤ p.time) && decide (p.time ≤ w.wend + tol) &&
      ! assigned.contains p.pid)

/-- Kept secondary pick ids of one waveform event. -/
def monKeepPids (ps : List PickRow) (tol : Int) (w : WavRow)
    (assigned : List Nat) : List Nat :=
  (dedupe eventProf tol (monRows ps tol w assigned)).1.map PickRow.pid

/-- Output event id: a waveform-defined event `wav_<waveform_id>` or a
pick-only event `pick_<group id>`. -/
inductive EvId where
  | wav (wid : Nat)
  | pickGrp (g : Nat)
deriving DecidableEq

/-- Output event class (`WAV_ONLY`, `WAV+PICKS`, `PICKS_ONLY`). -/
inductive EvClass where
  | wavOnly
  | wavPicks
  | picksOnly
deriving DecidableEq

/-- One output event row with its assigned pick ids (the event's rows of
the pick-map output). -/
structure OutEvent where
  eid : EvId
  cls : EvClass
  pickIds : List Nat
deriving DecidableEq

/-- PASS 1 body for one waveform row: authoritative picks via the STEP
30 map (event-local dedupe, then mark assigned), then in-window
unassigned secondary picks (event-local dedupe, then mark assigned).
Returns `(event, assigned-after, dropped pick ids of this event)`. -/
def processWav (ps : List PickRow) (ms : List MapRow) (tol : Int)
    (assigned : List Nat) (w : WavRow) : OutEvent × List Nat × List Nat :=
  (⟨EvId.wav w.wid,
    if (indKeepPids ps ms tol w ++ monKeepPids ps tol w (assigned ++ indKeepPids ps ms tol w)).isEmpty
      then EvClass.wavOnly else EvClass.wavPicks,
    indKeepPids ps ms tol w ++ monKeepPids ps tol w (assigned ++ indKeepPids ps ms tol w)⟩,
   assigned ++ indKeepPids ps ms tol w ++ monKeepPids ps tol w (assigned ++ indKeepPids ps ms tol w),
   (dedupe indProf tol (indRowsFor ps ms w)).2.map IndRow.pid ++
     (dedupe eventProf tol
       (monRows ps tol w (assigned ++ indKeepPids ps ms tol w))).2.map PickRow.pid)

/-- PASS 1 of `build_event_catalog`: fold `processWav` over the waveform
index, accumulating `(events, assigned_pick_ids, dropped pick ids)`. -/
def pass1 (ps : List PickRow) (ms : List MapRow) (tol : Int) :
    List WavRow → List Nat → List OutEvent × List Nat × List Nat
  | [], assigned => ([], assigned, [])
  | w :: ws, assigned =>
    let r := processWav ps ms tol assigned w
    let rest := pass1 ps ms tol ws r.2.1
    (r.1 :: rest.1, rest.2.1, r.2.2 ++ rest.2.2)

/-- PASS 2 of `build_event_catalog`: all picks whose `pick_id` was not
assigned in PASS 1 become `PICKS_ONLY` events, grouped by their STEP 22
group id (`groupby("event_id", sort=True)`). -/
def pass2 (ps : List PickRow) (assigned : List Nat) : List OutEvent :=
  (List.insertionSort (fun a b => a ≤ b)
      ((ps.filter (fun p => ! assigned.contains p.pid)).map PickRow.grp).dedup).map
    (fun g => ⟨EvId.pickGrp g, EvClass.picksOnly,
      ((ps.filter (fun p => ! assigned.contains p.pid)).filter
        (fun p => decide (p.grp = g))).map PickRow.pid⟩)

/-- First check of `validate_step30_map`: every map `pick_id` exists in
the STEP 22 merged pick table. -/
def mapPidsOk (ms : List MapRow) (ps : List PickRow) : Prop :=
  ∀ m ∈ ms, m.pid ∈ ps.map PickRow.pid

instance mapPidsOk.decidable (ms : List MapRow) (ps : List PickRow) :
    Decidable (mapPidsOk ms ps) :=
  List.decidableBAll _ ms

/-- Second check of `validate_step30_map`: no `pick_id` is mapped to
more than one distinct `waveform_id`. -/
def mapWidOk (ms : List MapRow) : Prop :=
  ∀ m ∈ ms, ∀ m' ∈ ms, m.pid = m'.pid → m.wid = m'.wid

instance mapWidOk.decidable (ms : List MapRow) : Decidable (mapWidOk ms) :=
  List.decidableBAll _ ms

/-- The uniqueness pandas enforces at
`df_map.merge(df_primary, on="pick_id", validate="many_to_one")`: the
right side (primary picks) must be unique on `pick_id`, else the merge
raises `MergeError`. -/
def primaryPidsNodup (ps : List PickRow) : Prop :=
  ((primary_picks ps).map PickRow.pid).Nodup

instance primaryPidsNodup.decidable (ps : List PickRow) :
    Decidable (primaryPidsNodup ps) :=
  inferInstanceAs (Decidable (List.Nodup _))

/-- `validate_step30_map` of `32_build_waveform_pick_events.py`: raises
on a map `pick_id` missing from the picks table, then on a `pick_id`
mapped to multiple waveforms. -/
def validate_step30_map (ms : List MapRow) (ps : List PickRow) :
    Except String Unit :=
  if ¬ mapPidsOk ms ps then
    Except.error "STEP 30 map contains pick_id values not present in STEP 22"
  else if ¬ mapWidOk ms then
    Except.error "STEP 30 map assigns the same pick_id to multiple waveforms"
  else Except.ok ()

/-- The full output catalog (PASS 1 waveform events then PASS 2
pick-only events). -/
def catalogOf (ws : List WavRow) (ps : List PickRow) (ms : List MapRow)
    (tol : Int) : List OutEvent :=
  (pass1 ps ms tol ws []).1 ++ pass2 ps (pass1 ps ms tol ws []).2.1

/-- `build_event_catalog` of `32_build_waveform_pick_events.py`:
validates the STEP 30 map, then the many-to-one pick merge, then builds
the catalog in two passes.  (Missing-column checks and NaT-time rows
are outside the model: ids and times are total here.) -/
def build_event_catalog (ws : List WavRow) (ps : List PickRow)
    (ms : List MapRow) (tol : Int) : Except String (List OutEvent) :=
  match validate_step30_map ms ps with
  | Except.error e => Except.error e
  | Except.ok _ =>
    if ¬ primaryPidsNodup ps then Except.error "merge validate many_to_one"
    else Except.ok (catalogOf ws ps ms tol)

/-- C9 counterexample: a map passing both `validate_step30_map`
checks does not guarantee the build proceeds — duplicate primary
`pick_id`s in the merged pick table make the many-to-one pick merge
fail even for a valid map. -/
theorem C9_counterexample :
    mapPidsOk [⟨1, 5, 0⟩] [⟨1, 0, 0, 0, 0, .primary⟩, ⟨1, 1, 0, 0, 100, .primary⟩] ∧
    mapWidOk [⟨1, 5, 0⟩] ∧
    build_event_catalog [] [⟨1, 0, 0, 0, 0, .primary⟩, ⟨1, 1, 0, 0, 100, .primary⟩]
      [⟨1, 5, 0⟩] 0 = Except.error "merge validate many_to_one" :=
  ⟨by decide, by decide, rfl⟩

/-- C9 amended: the builder fails fatally before producing output
when the map has a `pick_id` absent from the pick table or a `pick_id`
mapped to two waveforms; it proceeds for every map passing both checks
*provided* the primary picks have unique `pick_id`s (the many-to-one
merge validation). -/
theorem C9_validate_map_gate (ws : List WavRow) (ps : List PickRow)
    (ms : List MapRow) (tol : Int) :
    ((¬ mapPidsOk ms ps ∨ ¬ mapWidOk ms) →
      ∃ e, build_event_catalog ws ps ms tol = Except.error e) ∧
    (mapPidsOk ms ps → mapWidOk ms → primaryPidsNodup ps →
      build_event_catalog ws ps ms tol =
        Except.ok (catalogOf ws ps ms tol)) := by
  constructor
  · intro h
    by_cases hp : mapPidsOk ms ps
    · have hw : ¬ mapWidOk ms := by tauto
      refine ⟨"STEP 30 map assigns the same pick_id to multiple waveforms", ?_⟩
      unfold build_event_catalog validate_step30_map
      rw [if_neg (not_not_intro hp), if_pos hw]
    · refine ⟨"STEP 30 map contains pick_id values not present in STEP 22", ?_⟩
      unfold build_event_catalog validate_step30_map
      rw [if_pos hp]
  · intro h1 h2 h3
    unfold build_event_catalog validate_step30_map
    rw [if_neg (not_not_intro h1), if_neg (not_not_intro h2)]
    exact if_neg (not_not_intro h3)

/-- Witness for C9: a failing map input and a proceeding valid input. -/
theorem C9_validate_map_gate_witness :
    (∃ e, build_event_catalog [] [] [⟨1, 0, 0⟩] 0 = Except.error e) ∧
    build_event_catalog [⟨1, 0, 10⟩] [⟨7, 3, 0, 0, 5, .primary⟩] [⟨7, 1, 2⟩] 1 =
      Except.ok (catalogOf [⟨1, 0, 10⟩] [⟨7, 3, 0, 0, 5, .primary⟩] [⟨7, 1, 2⟩] 1) :=
  ⟨(C9_validate_map_gate [] [] [⟨1, 0, 0⟩] 0).1 (Or.inl (by decide)),
   (C9_validate_map_gate [⟨1, 0, 10⟩] [⟨7, 3, 0, 0, 5, .primary⟩]
      [⟨7, 1, 2⟩] 1).2 (by decide) (by decide) (by decide)⟩

/-- C10 counterexample: with two overlapping waveform windows, a
secondary pick dropped by the event-local dedupe of the first window is
window-matched and assigned by the second window: it *is* in the
assigned set after PASS 1 and is *not* re-emitted as a `PICKS_ONLY`
event. -/
theorem C10_counterexample :
    (2 : Nat) ∈ (pass1 [⟨1, 9, 0, 0, 10, .secondary⟩, ⟨2, 9, 0, 0, 10, .secondary⟩]
        [] 1 [⟨1, 0, 100⟩, ⟨2, 0, 100⟩] []).2.2 ∧
    (2 : Nat) ∈ (pass1 [⟨1, 9, 0, 0, 10, .secondary⟩, ⟨2, 9, 0, 0, 10, .secondary⟩]
        [] 1 [⟨1, 0, 100⟩, ⟨2, 0, 100⟩] []).2.1 ∧
    pass2 [⟨1, 9, 0, 0, 10, .secondary⟩, ⟨2, 9, 0, 0, 10, .secondary⟩]
      (pass1 [⟨1, 9, 0, 0, 10, .secondary⟩, ⟨2, 9, 0, 0, 10, .secondary⟩]
        [] 1 [⟨1, 0, 100⟩, ⟨2, 0, 100⟩] []).2.1 = [] := by
  refine ⟨by decide, by decide, by decide⟩

theorem pass2_covers (ps : List PickRow) (assigned : List Nat) (p : PickRow)
    (hp : p ∈ ps) (hun : p.pid ∉ assigned) :
    ∃ ev ∈ pass2 ps assigned, ev.eid = EvId.pickGrp p.grp ∧
      ev.cls = EvClass.picksOnly ∧ p.pid ∈ ev.pickIds := by
  have hrem : p ∈ ps.filter (fun p => ! assigned.contains p.pid) := by
    rw [List.mem_filter]
    refine ⟨hp, ?_⟩
    simpa using hun
  have hg : p.grp ∈ List.insertionSort (fun a b => a ≤ b)
      ((ps.filter (fun p => ! assigned.contains p.pid)).map PickRow.grp).dedup := by
    rw [List.mem_insertionSort]
    exact List.mem_dedup.mpr (List.mem_map_of_mem PickRow.grp hrem)
  unfold pass2
  refine ⟨_, List.mem_map_of_mem _ hg, rfl, rfl, ?_⟩
  exact List.mem_map_of_mem PickRow.pid
    (List.mem_filter.mpr ⟨hrem, by simp⟩)

/-- C10 amended: a pick whose `pick_id` is still unassigned after
PASS 1 (in particular a dedupe-dropped pick that no later window
re-assigns) is re-emitted in PASS 2 as a member of the `PICKS_ONLY`
event of its original group id. -/
theorem C10_unassigned_pick_reemitted (ws : List WavRow) (ps : List PickRow)
    (ms : List MapRow) (tol : Int) (p : PickRow) (hp : p ∈ ps)
    (hun : p.pid ∉ (pass1 ps ms tol ws []).2.1) :
    ∃ ev ∈ pass2 ps (pass1 ps ms tol ws []).2.1,
      ev.eid = EvId.pickGrp p.grp ∧ ev.cls = EvClass.picksOnly ∧
        p.pid ∈ ev.pickIds :=
  pass2_covers ps _ p hp hun

/-- Witness for the amended C10: an unassigned pick lands in the
`PICKS_ONLY` event of its group. -/
theorem C10_unassigned_pick_reemitted_witness :
    ∃ ev ∈ pass2 [⟨1, 4, 0, 0, 0, .primary⟩]
        (pass1 [⟨1, 4, 0, 0, 0, .primary⟩] [] 0 [] []).2.1,
      ev.eid = EvId.pickGrp 4 ∧ ev.cls = EvClass.picksOnly ∧ (1 : Nat) ∈ ev.pickIds :=
  C10_unassigned_pick_reemitted [] [⟨1, 4, 0, 0, 0, .primary⟩] [] 0
    ⟨1, 4, 0, 0, 0, .primary⟩ (by decide) (by decide)

theorem indKeepPids_sub (ps : List PickRow) (ms : List MapRow) (tol : Int)
    (w : WavRow) : ∀ i ∈ indKeepPids ps ms tol w,
    ∃ m ∈ ms, m.pid = i ∧ m.wid = w.wid := by
  intro i hi
  unfold indKeepPids at hi
  obtain ⟨r, hr, rfl⟩ := List.mem_map.mp hi
  have hr' := dedupe_fst_subset indProf tol _ r hr
  unfold indRowsFor at hr'
  obtain ⟨m, hm, rfl⟩ := List.mem_map.mp hr'
  have hm' := List.mem_filter.mp hm
  exact ⟨m, hm'.1, rfl, by simpa using hm'.2⟩

theorem monKeepPids_sub (ps : List PickRow) (tol : Int) (w : WavRow)
    (assigned : List Nat) : ∀ i ∈ monKeepPids ps tol w assigned,
    ∃ p ∈ ps, p.pri = PickPriority.secondary ∧ p.pid = i ∧ p.pid ∉ assigned := by
  intro i hi
  unfold monKeepPids at hi
  obtain ⟨p, hp, rfl⟩ := List.mem_map.mp hi
  have hp' := dedupe_fst_subset eventProf tol _ p hp
  unfold monRows at hp'
  have hp'' := List.mem_filter.mp hp'
  have hsec := List.mem_filter.mp hp''.1
  have hcond := hp''.2
  simp only [Bool.and_eq_true, Bool.not_eq_true'] at hcond
  refine ⟨p, hsec.1, by simpa using hsec.2, rfl, ?_⟩
  simpa using hcond.2

theorem pass1_assigned_iff (ps : List PickRow) (ms : List MapRow) (tol : Int) :
    ∀ (ws : List WavRow) (a₀ : List Nat) (i : Nat),
    i ∈ (pass1 ps ms tol ws a₀).2.1 ↔
      i ∈ a₀ ∨ ∃ ev ∈ (pass1 ps ms tol ws a₀).1, i ∈ ev.pickIds := by
  intro ws
  induction ws with
  | nil => intro a₀ i; simp [pass1]
  | cons w ws ih =>
    intro a₀ i
    have hpk : (processWav ps ms tol a₀ w).2.1 =
        a₀ ++ (processWav ps ms tol a₀ w).1.pickIds := by
      simp [processWav, List.append_assoc]
    have hstep : (pass1 ps ms tol (w :: ws) a₀).2.1 =
        (pass1 ps ms tol ws (processWav ps ms tol a₀ w).2.1).2.1 := rfl
    have hevs : (pass1 ps ms tol (w :: ws) a₀).1 =
        (processWav ps ms tol a₀ w).1 ::
          (pass1 ps ms tol ws (processWav ps ms tol a₀ w).2.1).1 := rfl
    rw [hstep, hevs, ih, hpk]
    constructor
    · rintro (h | ⟨ev, hev, hi⟩)
      · rcases List.mem_append.mp h with h' | h'
        · exact Or.inl h'
        · exact Or.inr ⟨_, List.mem_cons_self _ _, h'⟩
      · exact Or.inr ⟨ev, List.mem_cons_of_mem _ hev, hi⟩
    · rintro (h | ⟨ev, hev, hi⟩)
      · exact Or.inl (List.mem_append.mpr (Or.inl h))
      · rcases List.mem_cons.mp hev with rfl | hev'
        · exact Or.inl (List.mem_append.mpr (Or.inr hi))
        · exact Or.inr ⟨ev, hev', hi⟩

theorem pass1_assigned_pick_ind (ps : List PickRow) (ms : List MapRow)
    (tol : Int) : ∀ (ws : List WavRow) (a₀ : List Nat) (ev : OutEvent) (i : Nat),
    ev ∈ (pass1 ps ms tol ws a₀).1 → i ∈ ev.pickIds → i ∈ a₀ →
    ∃ w ∈ ws, i ∈ indKeepPids ps ms tol w := by
  intro ws
  induction ws with
  | nil => intro a₀ ev i hev; cases hev
  | cons w ws ih =>
    intro a₀ ev i hev hi hia
    have hevs : (pass1 ps ms tol (w :: ws) a₀).1 =
        (processWav ps ms tol a₀ w).1 ::
          (pass1 ps ms tol ws (processWav ps ms tol a₀ w).2.1).1 := rfl
    rw [hevs] at hev
    rcases List.mem_cons.mp hev with rfl | hev'
    · have hpk : (processWav ps ms tol a₀ w).1.pickIds =
          indKeepPids ps ms tol w ++
            monKeepPids ps tol w (a₀ ++ indKeepPids ps ms tol w) := rfl
      rw [hpk] at hi
      rcases List.mem_append.mp hi with hind | hmon
      · exact ⟨w, List.mem_cons_self w ws, hind⟩
      · obtain ⟨p, _, _, hpi, hpn⟩ := monKeepPids_sub ps tol w _ i hmon
        exact absurd (List.mem_append.mpr (Or.inl hia)) (hpi ▸ hpn)
    · have hia' : i ∈ (processWav ps ms tol a₀ w).2.1 := by
        have : (processWav ps ms tol a₀ w).2.1 =
            a₀ ++ (processWav ps ms tol a₀ w).1.pickIds := by
          simp [processWav, List.append_assoc]
        rw [this]
        exact List.mem_append.mpr (Or.inl hia)
      obtain ⟨w', hw', hind'⟩ := ih _ ev i hev' hi hia'
      exact ⟨w', List.mem_cons_of_mem w hw', hind'⟩

/-- Two output events never share a pick id. -/
def evDisj (e₁ e₂ : OutEvent) : Prop :=
  ∀ i, i ∈ e₁.pickIds → i ∉ e₂.pickIds

theorem ind_not_both (ps : List PickRow) (ms : List MapRow) (tol : Int)
    (hmw : mapWidOk ms) (w w' : WavRow) (hne : w.wid ≠ w'.wid) (i : Nat)
    (hi : i ∈ indKeepPids ps ms tol w) (hi' : i ∈ indKeepPids ps ms tol w') :
    False := by
  obtain ⟨m, hm, hmpid, hmwid⟩ := indKeepPids_sub ps ms tol w i hi
  obtain ⟨m', hm', hmpid', hmwid'⟩ := indKeepPids_sub ps ms tol w' i hi'
  exact hne (by rw [← hmwid, ← hmwid']; exact hmw m hm m' hm' (by rw [hmpid, hmpid']))

theorem mon_not_ind (ps : List PickRow) (ms : List MapRow) (tol : Int)
    (hpid : (ps.map PickRow.pid).Nodup)
    (hmp : ∀ m ∈ ms, m.pid ∈ (primary_picks ps).map PickRow.pid)
    (w w' : WavRow) (assigned : List Nat) (i : Nat)
    (hmon : i ∈ monKeepPids ps tol w assigned)
    (hind : i ∈ indKeepPids ps ms tol w') : False := by
  obtain ⟨p, hpmem, hsec, hpi, -⟩ := monKeepPids_sub ps tol w assigned i hmon
  obtain ⟨m, hmm, hmpid, -⟩ := indKeepPids_sub ps ms tol w' i hind
  obtain ⟨q, hq, hqpid⟩ := List.mem_map.mp (hmp m hmm)
  have hq' := List.mem_filter.mp hq
  have hpq : p = q :=
    List.inj_on_of_nodup_map hpid hpmem hq'.1 (by rw [hqpid, hmpid, hpi])
  have : PickPriority.secondary = PickPriority.primary := by
    rw [← hsec, hpq]
    simpa using hq'.2
  cases this

theorem pass1_pairwise (ps : List PickRow) (ms : List MapRow) (tol : Int)
    (hpid : (ps.map PickRow.pid).Nodup)
    (hmp : ∀ m ∈ ms, m.pid ∈ (primary_picks ps).map PickRow.pid)
    (hmw : mapWidOk ms) :
    ∀ (ws : List WavRow) (a₀ : List Nat),
    (ws.map WavRow.wid).Nodup →
    (∀ i ∈ a₀, ∀ w ∈ ws, i ∉ indKeepPids ps ms tol w) →
    List.Pairwise evDisj (pass1 ps ms tol ws a₀).1 := by
  intro ws
  induction ws with
  | nil => intro a₀ _ _; exact List.Pairwise.nil
  | cons w ws ih =>
    intro a₀ hwid hA
    rw [List.map_cons, List.nodup_cons] at hwid
    have hwne : ∀ w₀ ∈ ws, w.wid ≠ w₀.wid := fun w₀ hw₀ hcon =>
      hwid.1 (hcon ▸ List.mem_map_of_mem WavRow.wid hw₀)
    have hpk : (processWav ps ms tol a₀ w).1.pickIds =
        indKeepPids ps ms tol w ++
          monKeepPids ps tol w (a₀ ++ indKeepPids ps ms tol w) := rfl
    have hnotind : ∀ i, i ∈ (processWav ps ms tol a₀ w).1.pickIds →
        ∀ w₀ ∈ ws, i ∉ indKeepPids ps ms tol w₀ := by
      intro i hi w₀ hw₀ hind₀
      rw [hpk] at hi
      rcases List.mem_append.mp hi with hind | hmon
      · exact ind_not_both ps ms tol hmw w w₀ (hwne w₀ hw₀) i hind hind₀
      · exact mon_not_ind ps ms tol hpid hmp w w₀ _ i hmon hind₀
    have hA' : ∀ i ∈ (processWav ps ms tol a₀ w).2.1,
        ∀ w₀ ∈ ws, i ∉ indKeepPids ps ms tol w₀ := by
      intro i hi w₀ hw₀ hind₀
      have hsplit : (processWav ps ms tol a₀ w).2.1 =
          a₀ ++ (processWav ps ms tol a₀ w).1.pickIds := by
        simp [processWav, List.append_assoc]
      rw [hsplit] at hi
      rcases List.mem_append.mp hi with ha | hp
      · exact hA i ha w₀ (List.mem_cons_of_mem w hw₀) hind₀
      · exact hnotind i hp w₀ hw₀ hind₀
    have hevs : (pass1 ps ms tol (w :: ws) a₀).1 =
        (processWav ps ms tol a₀ w).1 ::
          (pass1 ps ms tol ws (processWav ps ms tol a₀ w).2.1).1 := rfl
    rw [hevs]
    refine List.pairwise_cons.mpr ⟨?_, ih _ hwid.2 hA'⟩
    intro ev' hev' i hi hi'
    have hia : i ∈ (processWav ps ms tol a₀ w).2.1 := by
      have hsplit : (processWav ps ms tol a₀ w).2.1 =
          a₀ ++ (processWav ps ms tol a₀ w).1.pickIds := by
        simp [processWav, List.append_assoc]
      rw [hsplit]
      exact List.mem_append.mpr (Or.inr hi)
    obtain ⟨w₀, hw₀, hind₀⟩ :=
      pass1_assigned_pick_ind ps ms tol ws _ ev' i hev' hi' hia
    exact hnotind i hi w₀ hw₀ hind₀

theorem pass2_pick_src (ps : List PickRow) (assigned : List Nat) :
    ∀ ev ∈ pass2 ps assigned, ∀ i ∈ ev.pickIds,
    ∃ p ∈ ps, p.pid = i ∧ p.pid ∉ assigned := by
  intro ev hev i hi
  unfold pass2 at hev
  obtain ⟨g, _, rfl⟩ := List.mem_map.mp hev
  obtain ⟨p, hp, rfl⟩ := List.mem_map.mp hi
  have hp₁ := List.mem_filter.mp hp
  have hp₂ := List.mem_filter.mp hp₁.1
  refine ⟨p, hp₂.1, rfl, ?_⟩
  have := hp₂.2
  simp only [Bool.not_eq_true'] at this
  simpa using this

theorem pass2_pairwise (ps : List PickRow) (assigned : List Nat)
    (hpid : (ps.map PickRow.pid).Nodup) :
    List.Pairwise evDisj (pass2 ps assigned) := by
  unfold pass2
  rw [List.pairwise_map]
  have hremnd : ((ps.filter (fun p => ! assigned.contains p.pid)).map
      PickRow.pid).Nodup :=
    hpid.sublist ((List.filter_sublist ps).map PickRow.pid)
  have hnd : (List.insertionSort (fun a b => a ≤ b)
      ((ps.filter (fun p => ! assigned.contains p.pid)).map PickRow.grp).dedup).Nodup :=
    ((List.perm_insertionSort (fun a b => a ≤ b) _).nodup_iff).mpr
      (List.nodup_dedup _)
  refine hnd.imp ?_
  intro g₁ g₂ hne i hi₁ hi₂
  obtain ⟨p, hp, hpi⟩ := List.mem_map.mp hi₁
  obtain ⟨q, hq, hqi⟩ := List.mem_map.mp hi₂
  have hp' := List.mem_filter.mp hp
  have hq' := List.mem_filter.mp hq
  have hpq : p = q := by
    refine List.inj_on_of_nodup_map hremnd hp'.1 hq'.1 ?_
    rw [hpi, hqi]
  apply hne
  have hg₁ : p.grp = g₁ := by simpa using hp'.2
  have hg₂ : q.grp = g₂ := by simpa using hq'.2
  rw [← hg₁, ← hg₂, hpq]

theorem pass1_pick_src (ps : List PickRow) (ms : List MapRow) (tol : Int)
    (hmp : ∀ m ∈ ms, m.pid ∈ (primary_picks ps).map PickRow.pid) :
    ∀ (ws : List WavRow) (a₀ : List Nat) (ev : OutEvent),
    ev ∈ (pass1 ps ms tol ws a₀).1 → ∀ i ∈ ev.pickIds, i ∈ ps.map PickRow.pid := by
  intro ws
  induction ws with
  | nil => intro a₀ ev hev; cases hev
  | cons w ws ih =>
    intro a₀ ev hev i hi
    have hevs : (pass1 ps ms tol (w :: ws) a₀).1 =
        (processWav ps ms tol a₀ w).1 ::
          (pass1 ps ms tol ws (processWav ps ms tol a₀ w).2.1).1 := rfl
    rw [hevs] at hev
    rcases List.mem_cons.mp hev with rfl | hev'
    · have hpk : (processWav ps ms tol a₀ w).1.pickIds =
          indKeepPids ps ms tol w ++
            monKeepPids ps tol w (a₀ ++ indKeepPids ps ms tol w) := rfl
      rw [hpk] at hi
      rcases List.mem_append.mp hi with hind | hmon
      · obtain ⟨m, hm, hmpid, -⟩ := indKeepPids_sub ps ms tol w i hind
        obtain ⟨q, hq, hqpid⟩ := List.mem_map.mp (hmp m hm)
        exact (hmpid ▸ hqpid ▸
          List.mem_map_of_mem PickRow.pid (List.mem_filter.mp hq).1)
      · obtain ⟨p, hp, -, hpi, -⟩ := monKeepPids_sub ps tol w _ i hmon
        exact hpi ▸ List.mem_map_of_mem PickRow.pid hp
    · exact ih _ ev hev' i hi

/-- C2 counterexample: a STEP 30 map that passes both
`validate_step30_map` checks but references a *secondary* pick makes a
pick id appear in two output events: the pick is window-matched into an
earlier waveform event and also attached (through the map) to its mapped
waveform event. -/
theorem C2_counterexample :
    mapPidsOk [⟨5, 2, 3⟩] [⟨5, 0, 0, 0, 5, .secondary⟩] ∧
    mapWidOk [⟨5, 2, 3⟩] ∧
    ((build_event_catalog [⟨1, 0, 10⟩, ⟨2, 100, 110⟩]
        [⟨5, 0, 0, 0, 5, .secondary⟩] [⟨5, 2, 3⟩] 1).toOption.getD
      []).countP (fun ev => decide (5 ∈ ev.pickIds)) = 2 := by
  refine ⟨by decide, by decide, by decide⟩

/-- C2 amended: when waveform ids and pick ids are unique and the
STEP 30 map references only primary pick ids (its documented content),
the catalog's pick lists cover every input pick id, contain only input
pick ids, and no pick id appears in two output events. -/
theorem C2_pick_coverage_partition (ws : List WavRow) (ps : List PickRow)
    (ms : List MapRow) (tol : Int)
    (hwid : (ws.map WavRow.wid).Nodup)
    (hpid : (ps.map PickRow.pid).Nodup)
    (hmp : ∀ m ∈ ms, m.pid ∈ (primary_picks ps).map PickRow.pid)
    (hmw : mapWidOk ms) :
    (∀ p ∈ ps, ∃ ev ∈ catalogOf ws ps ms tol, p.pid ∈ ev.pickIds) ∧
    (∀ ev ∈ catalogOf ws ps ms tol, ∀ i ∈ ev.pickIds, i ∈ ps.map PickRow.pid) ∧
    List.Pairwise evDisj (catalogOf ws ps ms tol) := by
  refine ⟨?_, ?_, ?_⟩
  · intro p hp
    by_cases hassigned : p.pid ∈ (pass1 ps ms tol ws []).2.1
    · rcases (pass1_assigned_iff ps ms tol ws [] p.pid).mp hassigned with
        h | ⟨ev, hev, hi⟩
      · cases h
      · exact ⟨ev, List.mem_append.mpr (Or.inl hev), hi⟩
    · obtain ⟨ev, hev, -, -, hi⟩ := pass2_covers ps _ p hp hassigned
      exact ⟨ev, List.mem_append.mpr (Or.inr hev), hi⟩
  · intro ev hev i hi
    rcases List.mem_append.mp hev with h | h
    · exact pass1_pick_src ps ms tol hmp ws [] ev h i hi
    · obtain ⟨p, hp, hpi, -⟩ := pass2_pick_src ps _ ev h i hi
      exact hpi ▸ List.mem_map_of_mem PickRow.pid hp
  · unfold catalogOf
    rw [List.pairwise_append]
    refine ⟨pass1_pairwise ps ms tol hpid hmp hmw ws [] hwid
        (by intro i hi; cases hi), pass2_pairwise ps _ hpid, ?_⟩
    intro ev hev ev' hev' i hi hi'
    have hia : i ∈ (pass1 ps ms tol ws []).2.1 :=
      (pass1_assigned_iff ps ms tol ws [] i).mpr (Or.inr ⟨ev, hev, hi⟩)
    obtain ⟨p, -, hpi, hpn⟩ := pass2_pick_src ps _ ev' hev' i hi'
    exact hpn (hpi ▸ hia)

/-- Witness for the amended C2 at a small concrete input: one waveform,
one mapped primary pick, one unassigned secondary pick. -/
theorem C2_pick_coverage_partition_witness :
    (∀ p ∈ [(⟨7, 3, 0, 0, 5, .primary⟩ : PickRow), ⟨8, 6, 1, 0, 500, .secondary⟩],
      ∃ ev ∈ catalogOf [⟨1, 0, 10⟩]
          [⟨7, 3, 0, 0, 5, .primary⟩, ⟨8, 6, 1, 0, 500, .secondary⟩] [⟨7, 1, 2⟩] 1,
        p.pid ∈ ev.pickIds) ∧
    (∀ ev ∈ catalogOf [⟨1, 0, 10⟩]
        [⟨7, 3, 0, 0, 5, .primary⟩, ⟨8, 6, 1, 0, 500, .secondary⟩] [⟨7, 1, 2⟩] 1,
      ∀ i ∈ ev.pickIds,
        i ∈ [(⟨7, 3, 0, 0, 5, .primary⟩ : PickRow),
          ⟨8, 6, 1, 0, 500, .secondary⟩].map PickRow.pid) ∧
    List.Pairwise evDisj (catalogOf [⟨1, 0, 10⟩]
      [⟨7, 3, 0, 0, 5, .primary⟩, ⟨8, 6, 1, 0, 500, .secondary⟩] [⟨7, 1, 2⟩] 1) :=
  C2_pick_coverage_partition [⟨1, 0, 10⟩]
    [⟨7, 3, 0, 0, 5, .primary⟩, ⟨8, 6, 1, 0, 500, .secondary⟩] [⟨7, 1, 2⟩] 1
    (by decide) (by decide) (by decide) (by decide)

/-- One row of the step-32 event index as read by step 50: `event_id`,
`event_time` (parsed `starttime`), and the spine `event_class`. -/
structure SpineRow where
  eid : Nat
  time : Int
  cls : EvClass
deriving DecidableEq

/-- One row of the step-43 hypocenter event index: cluster `event_id`
and `preferred_origin_time`. -/
structure HypoEvt where
  hid : Nat
  time : Int
deriving DecidableEq

/-- `sort_values("preferred_origin_time")` order. -/
def hypoLe (a b : HypoEvt) : Prop := a.time ≤ b.time

instance hypoLe.decidable : DecidableRel hypoLe :=
  fun a b => inferInstanceAs (Decidable (a.time ≤ b.time))

/-- `pd.merge_asof(..., direction="nearest", tolerance=...)` for one
left row at time `t`: the hypocenter cluster with minimal `|Δt|` among
those within `tol` (on a tie, the earlier cluster — pandas resolves
equidistant matches backward). -/
def nearestHypo (hs : List HypoEvt) (tol : Int) (t : Int) : Option Nat :=
  (((List.insertionSort hypoLe hs).filter
      (fun h => decide (|h.time - t| ≤ tol))).foldl
    (fun acc h =>
      match acc with
      | none => some h
      | some b => if |h.time - t| < |b.time - t| then some h else some b)
    none).map HypoEvt.hid

/-- Origin ids of one hypocenter cluster
(`df_ho[df_ho["event_id"] == hid]`). -/
def originsOf (ho : List (Nat × Nat)) (hid : Nat) : List Nat :=
  (ho.filter (fun r => decide (r.1 = hid))).map Prod.snd

/-- The final event ontology of step 50. -/
inductive Cls50 where
  | wph
  | wp
  | wh
  | wOnly
  | pOnly
  | hOnly
deriving DecidableEq

/-- Output event id of step 50: a spine (waveform/pick) event or a
hypocenter-only event. -/
inductive EvId50 where
  | spine (eid : Nat)
  | hypoOnly (hid : Nat)
deriving DecidableEq

/-- One ObsPy `Event` of the output catalog, reduced to identity,
attached origin ids and final class. -/
structure CatEvent where
  eid : EvId50
  originIds : List Nat
  cls : Cls50
deriving DecidableEq

def hasW (c : EvClass) : Bool :=
  match c with
  | .wavOnly => true
  | .wavPicks => true
  | .picksOnly => false

def hasP (c : EvClass) : Bool :=
  match c with
  | .wavOnly => false
  | .wavPicks => true
  | .picksOnly => true

/-- The final `EVENT_CLASS` decision chain of step 50. -/
def finalClass (c : EvClass) (hasH : Bool) : Cls50 :=
  if hasW c && hasP c && hasH then Cls50.wph
  else if hasW c && hasP c then Cls50.wp
  else if hasW c && hasH then Cls50.wh
  else if hasW c then Cls50.wOnly
  else Cls50.pOnly

/-- Building one catalog event from a spine row: attach the origins of
the nearest hypocenter cluster within tolerance (if any); `has_h`
requires a nonempty origin list, as in the source. -/
def spineEvent (hs : List HypoEvt) (ho : List (Nat × Nat)) (tol : Int)
    (w : SpineRow) : CatEvent :=
  match nearestHypo hs tol w.time with
  | some hid =>
    ⟨EvId50.spine w.eid, originsOf ho hid,
      finalClass w.cls (! (originsOf ho hid).isEmpty)⟩
  | none => ⟨EvId50.spine w.eid, [], finalClass w.cls false⟩

/-- `used_hypo_ids`: every cluster id matched by some spine event. -/
def usedHypo (ws : List SpineRow) (hs : List HypoEvt) (tol : Int) : List Nat :=
  ws.filterMap (fun w => nearestHypo hs tol w.time)

/-- The event-building phase of `50_build_obspy_catalog.py` (`main`):
one event per spine row with its nearest-in-time hypocenter cluster
attached, then one `H_ONLY` event per unmatched cluster. -/
def build_obspy_catalog (ws : List SpineRow) (hs : List HypoEvt)
    (ho : List (Nat × Nat)) (tol : Int) : List CatEvent :=
  ws.map (spineEvent hs ho tol) ++
    (hs.filter (fun h => ! (usedHypo ws hs tol).contains h.hid)).map
      (fun h => ⟨EvId50.hypoOnly h.hid, originsOf ho h.hid, Cls50.hOnly⟩)

/-- C1 counterexample: the waveform-event/hypocenter join is a
per-event nearest match, not one-to-one: two waveform events within
tolerance of the same cluster both receive it, so its `origin_id`
appears in two output events (and no assertion fails). -/
theorem C1_counterexample :
    (build_obspy_catalog [⟨1, 0, .wavOnly⟩, ⟨2, 1, .wavOnly⟩] [⟨7, 0⟩]
        [(7, 100)] 10).countP (fun ev => decide ((100 : Nat) ∈ ev.originIds)) = 2 := by
  decide

theorem spineEvent_eid (hs : List HypoEvt) (ho : List (Nat × Nat))
    (tol : Int) (w : SpineRow) :
    (spineEvent hs ho tol w).eid = EvId50.spine w.eid := by
  unfold spineEvent
  cases nearestHypo hs tol w.time <;> rfl

theorem countP_filter_key_eq_one :
    ∀ (hs : List HypoEvt) (h : HypoEvt), (hs.map HypoEvt.hid).Nodup →
    h ∈ hs → ∀ (q : HypoEvt → Bool), q h = true →
    (hs.filter q).countP (fun x => decide (x.hid = h.hid)) = 1 := by
  intro hs
  induction hs with
  | nil => intro h _ hh; cases hh
  | cons a hs ih =>
    intro h hnd hh q hq
    rw [List.map_cons, List.nodup_cons] at hnd
    rcases List.mem_cons.mp hh with rfl | hh'
    · rw [List.filter_cons_of_pos hq, List.countP_cons_of_pos _ _ (by simp)]
      have hzero : (hs.filter q).countP (fun x => decide (x.hid = h.hid)) = 0 := by
        rw [List.countP_eq_zero]
        intro x hx
        have hx' : x ∈ hs := (List.filter_sublist hs).mem hx
        simp only [decide_eq_true_eq]
        intro hcon
        exact hnd.1 (hcon ▸ List.mem_map_of_mem HypoEvt.hid hx')
      rw [hzero]
    · have hane : ¬ (a.hid = h.hid) := fun hcon =>
        hnd.1 (hcon ▸ List.mem_map_of_mem HypoEvt.hid hh')
      by_cases hqa : q a = true
      · rw [List.filter_cons_of_pos hqa,
          List.countP_cons_of_neg _ _ (by simpa using hane)]
        exact ih h hnd.2 hh' q hq
      · rw [List.filter_cons_of_neg (by simpa using hqa)]
        exact ih h hnd.2 hh' q hq

/-- C1 amended: every `origin_id` of a known cluster appears in *at
least* one output event (matched clusters attach to every spine event
that selected them — possibly several; unmatched clusters each produce a
`HYPO_ONLY` event), and every unmatched cluster produces exactly one
`HYPO_ONLY` event.  The join is per-event nearest-match, not one-to-one,
and nothing is asserted. -/
theorem C1_origin_attachment (ws : List SpineRow) (hs : List HypoEvt)
    (ho : List (Nat × Nat)) (tol : Int)
    (hnd : (hs.map HypoEvt.hid).Nodup) :
    (∀ r ∈ ho, r.1 ∈ hs.map HypoEvt.hid →
      ∃ ev ∈ build_obspy_catalog ws hs ho tol, r.2 ∈ ev.originIds) ∧
    (∀ h ∈ hs, h.hid ∉ usedHypo ws hs tol →
      (build_obspy_catalog ws hs ho tol).countP
        (fun ev => decide (ev.eid = EvId50.hypoOnly h.hid)) = 1) := by
  constructor
  · intro r hr hmem
    have hor : r.2 ∈ originsOf ho r.1 :=
      List.mem_map_of_mem Prod.snd (List.mem_filter.mpr ⟨hr, by simp⟩)
    by_cases hu : r.1 ∈ usedHypo ws hs tol
    · obtain ⟨w, hw, hnw⟩ := List.mem_filterMap.mp hu
      refine ⟨spineEvent hs ho tol w,
        List.mem_append.mpr (Or.inl (List.mem_map_of_mem _ hw)), ?_⟩
      unfold spineEvent
      rw [hnw]
      exact hor
    · obtain ⟨h, hh, hhid⟩ := List.mem_map.mp hmem
      refine ⟨⟨EvId50.hypoOnly h.hid, originsOf ho h.hid, Cls50.hOnly⟩,
        List.mem_append.mpr (Or.inr (List.mem_map_of_mem _
          (List.mem_filter.mpr ⟨hh, ?_⟩))), ?_⟩
      · simpa using (hhid ▸ hu)
      · show r.2 ∈ originsOf ho h.hid
        rw [hhid]
        exact hor
  · intro h hh hun
    unfold build_obspy_catalog
    rw [List.countP_append]
    have hz : (ws.map (spineEvent hs ho tol)).countP
        (fun ev => decide (ev.eid = EvId50.hypoOnly h.hid)) = 0 := by
      rw [List.countP_eq_zero]
      intro ev hev
      obtain ⟨w, -, rfl⟩ := List.mem_map.mp hev
      simp [spineEvent_eid]
    rw [hz, Nat.zero_add, List.countP_map]
    have hcong : ((hs.filter (fun h₀ => ! (usedHypo ws hs tol).contains h₀.hid)).countP
          ((fun ev => decide (ev.eid = EvId50.hypoOnly h.hid)) ∘
            (fun h₀ => (⟨EvId50.hypoOnly h₀.hid, originsOf ho h₀.hid, Cls50.hOnly⟩ : CatEvent)))) =
        ((hs.filter (fun h₀ => ! (usedHypo ws hs tol).contains h₀.hid)).countP
          (fun x => decide (x.hid = h.hid))) := by
      apply List.countP_congr
      intro a _
      simp [Function.comp, EvId50.hypoOnly.injEq]
    rw [hcong]
    exact countP_filter_key_eq_one hs h hnd hh _ (by simpa using hun)

/-- Witness for the amended C1: a lone unmatched cluster yields exactly
one `H_ONLY` event carrying its origin. -/
theorem C1_origin_attachment_witness :
    (∀ r ∈ [((7 : Nat), (100 : Nat))], r.1 ∈ [(⟨7, 0⟩ : HypoEvt)].map HypoEvt.hid →
      ∃ ev ∈ build_obspy_catalog [] [⟨7, 0⟩] [(7, 100)] 0, r.2 ∈ ev.originIds) ∧
    (∀ h ∈ [(⟨7, 0⟩ : HypoEvt)], h.hid ∉ usedHypo [] [⟨7, 0⟩] 0 →
      (build_obspy_catalog [] [⟨7, 0⟩] [(7, 100)] 0).countP
        (fun ev => decide (ev.eid = EvId50.hypoOnly h.hid)) = 1) :=
  C1_origin_attachment [] [⟨7, 0⟩] [(7, 100)] 0 (by decide)

/-- One row of the step-04 merged pick index as read by step 05b:
`pick_id`, parsed `pick_time`, and the two hint columns
(`merged_event_hint`, then `event_id`) used to recover the
authoritative waveform event id. -/
structure Pick05 where
  pid : Nat
  time : Int
  hint1 : Option Nat
  hint2 : Option Nat
deriving DecidableEq

/-- `_event_hint_for_group` of `05b_build_waveform_pick_events.py`: the
unique non-null value of `merged_event_hint` (more than one distinct
value → no hint); when that column is empty for the group, fall back to
`event_id` with the same rule. -/
def event_hint_for_group (g : List Pick05) : Option Nat :=
  match (g.filterMap Pick05.hint1).dedup with
  | [v] => some v
  | _ :: _ :: _ => none
  | [] =>
    match (g.filterMap Pick05.hint2).dedup with
    | [v] => some v
    | _ => none

/-- The waveform row an explicit hint resolves to
(`hint is not None and hint in wav_by_id.index`). -/
def hintWav (wav : List WavRow) (g : List Pick05) : Option WavRow :=
  match event_hint_for_group g with
  | some h => wav.find? (fun w => decide (w.wid = h))
  | none => none

def groupTmin (g : List Pick05) : Int := ((g.map Pick05.time).min?).getD 0

def groupTmax (g : List Pick05) : Int := ((g.map Pick05.time).max?).getD 0

/-- Fallback time-enclosure candidates:
`starttime <= tmin + tol and endtime >= tmax - tol`. -/
def enclosing (wav : List WavRow) (tol : Int) (g : List Pick05) : List WavRow :=
  wav.filter (fun w => decide (w.wstart ≤ groupTmin g + tol) &&
    decide (groupTmax g - tol ≤ w.wend))

/-- Deterministic tie-break for multiple enclosing windows: the shortest
duration (`matches.sort_values("dur").iloc[0]`). -/
def shortestWav (l : List WavRow) : Option WavRow :=
  l.foldl
    (fun acc w =>
      match acc with
      | none => some w
      | some b => if w.wend - w.wstart < b.wend - b.wstart then some w else some b)
    none

/-- How a pick group was associated. -/
inductive AssocMethod where
  | byId
  | enclosure
  | enclosureShortest
  | pickOnly
deriving DecidableEq

/-- Result of processing one pick group: the association method, the
chosen waveform (if any), the pick ids written to the event's pick map,
and the pick ids reported as `id_match_but_pick_outside_window`. -/
structure GroupResult where
  method : AssocMethod
  wid : Option Nat
  evPickIds : List Nat
  anomalies : List Nat
deriving DecidableEq

/-- The per-group body of the association loop in
`05b_build_waveform_pick_events.py` (`main`): ID-based match first (all
picks attached, out-of-window picks recorded but kept), else time
enclosure with one/multiple/zero matches. -/
def process_group (wav : List WavRow) (tol : Int) (g : List Pick05) :
    GroupResult :=
  match hintWav wav g with
  | some w =>
    ⟨AssocMethod.byId, some w.wid, g.map Pick05.pid,
      (g.filter (fun p => decide (p.time < w.wstart - tol) ||
        decide (w.wend + tol < p.time))).map Pick05.pid⟩
  | none =>
    match enclosing wav tol g with
    | [] => ⟨AssocMethod.pickOnly, none, g.map Pick05.pid, []⟩
    | [w] => ⟨AssocMethod.enclosure, some w.wid, g.map Pick05.pid, []⟩
    | w :: ws =>
      match shortestWav (w :: ws) with
      | some wbest => ⟨AssocMethod.enclosureShortest, some wbest.wid,
          g.map Pick05.pid, []⟩
      | none => ⟨AssocMethod.pickOnly, none, g.map Pick05.pid, []⟩

/-- C6: when a pick group carries an explicit waveform-id hint that
resolves to a known waveform window, every pick of the group is
associated to that window (none dropped), and exactly the picks whose
time lies outside `[start - tol, end + tol]` are additionally reported
as anomalies. -/
theorem C6_hint_association_keeps_all_picks (wav : List WavRow)
    (tol : Int) (g : List Pick05) (w : WavRow)
    (hw : hintWav wav g = some w) :
    (process_group wav tol g).method = AssocMethod.byId ∧
    (process_group wav tol g).wid = some w.wid ∧
    (process_group wav tol g).evPickIds = g.map Pick05.pid ∧
    (∀ p ∈ g, (p.time < w.wstart - tol ∨ w.wend + tol < p.time) →
      p.pid ∈ (process_group wav tol g).anomalies) ∧
    (∀ i ∈ (process_group wav tol g).anomalies,
      ∃ p ∈ g, p.pid = i ∧ (p.time < w.wstart - tol ∨ w.wend + tol < p.time)) := by
  unfold process_group
  rw [hw]
  refine ⟨rfl, rfl, rfl, ?_, ?_⟩
  · intro p hp hout
    exact List.mem_map_of_mem Pick05.pid
      (List.mem_filter.mpr ⟨hp, by
        rcases hout with h | h
        · simp [h]
        · simp [h]⟩)
  · intro i hi
    obtain ⟨p, hp, rfl⟩ := List.mem_map.mp hi
    have hp' := List.mem_filter.mp hp
    refine ⟨p, hp'.1, rfl, ?_⟩
    have := hp'.2
    simp only [Bool.or_eq_true, decide_eq_true_eq] at this
    exact this

/-- Witness for C6: a hint-matched group with one in-window and one
out-of-window pick — both attached, the latter flagged. -/
theorem C6_hint_association_keeps_all_picks_witness :
    (process_group [⟨4, 0, 10⟩] 1
        [⟨1, 5, some 4, none⟩, ⟨2, 50, some 4, none⟩]).method = AssocMethod.byId ∧
    (process_group [⟨4, 0, 10⟩] 1
        [⟨1, 5, some 4, none⟩, ⟨2, 50, some 4, none⟩]).wid = some 4 ∧
    (process_group [⟨4, 0, 10⟩] 1
        [⟨1, 5, some 4, none⟩, ⟨2, 50, some 4, none⟩]).evPickIds =
      [⟨1, 5, some 4, none⟩, (⟨2, 50, some 4, none⟩ : Pick05)].map Pick05.pid ∧
    (∀ p ∈ [(⟨1, 5, some 4, none⟩ : Pick05), ⟨2, 50, some 4, none⟩],
      (p.time < 0 - 1 ∨ 10 + 1 < p.time) →
        p.pid ∈ (process_group [⟨4, 0, 10⟩] 1
          [⟨1, 5, some 4, none⟩, ⟨2, 50, some 4, none⟩]).anomalies) ∧
    (∀ i ∈ (process_group [⟨4, 0, 10⟩] 1
        [⟨1, 5, some 4, none⟩, ⟨2, 50, some 4, none⟩]).anomalies,
      ∃ p ∈ [(⟨1, 5, some 4, none⟩ : Pick05), ⟨2, 50, some 4, none⟩],
        p.pid = i ∧ (p.time < 0 - 1 ∨ 10 + 1 < p.time)) :=
  C6_hint_association_keeps_all_picks [⟨4, 0, 10⟩] 1
    [⟨1, 5, some 4, none⟩, ⟨2, 50, some 4, none⟩] ⟨4, 0, 10⟩ (by decide)
